import Mathlib

/-!
Verification development for the cassandradump export/import tool
(source: cassandradump.py).

The development shallowly embeds the parts of the program that the checked
properties are about:

* the row statement synthesizer `make_row_encoder` (lines 70-102), including
  the `itertools.groupby`-based partition of the column sequence into counter
  and non-counter columns and the last-wins `dict(...)` built from it;
* the NULL-safe value-encoder wrapper `make_value_encoder` (lines 63-65);
* the per-table export loop of `table_to_cqlfile` (lines 107-111), which
  writes one `<statement>;\n` per fetched row and counts rows;
* the concurrency classifier `can_execute_concurrently` (lines 120-127);
* the import replayer loop of `import_data` (lines 130-169), modelled as a
  fold producing a trace of execution events (concurrent batches and
  synchronous statements) in submission order;
* the statement reassembly performed by that loop (accumulate file lines
  until the buffer ends with the two-character delimiter), together with a
  model of line splitting of the written file;
* the configuration validation of `export_data` (lines 192-206) and the
  ordering of effects in `main` (lines 351-396), as an effect trace.

Statements handled by the import path are modelled as `List Char` so that
the line/buffer manipulations stay inductive; the synthesizer side uses
`String` directly.
-/

namespace CDump

/-! ### Row statement synthesizer (cassandradump.py lines 51-102) -/

/-- A column as the synthesizer sees it: `(name, cql type name)`, in the
insertion order of `tableval.columns.iteritems()`. -/
abbrev Column := String × String

/-- The predicate `lambda (k, v): cql_type(v) == 'counter'` used as the
`groupby` key function (line 73). -/
def is_counter_kv (kv : Column) : Bool := kv.2 == "counter"

/-- One step of the run-grouping fold: extend the current leading run when
the key matches, otherwise start a new run. -/
def groupby_step (f : α → Bool) (x : α) (acc : List (Bool × List α)) :
    List (Bool × List α) :=
  match acc with
  | [] => [(f x, [x])]
  | (k, run) :: rest =>
    if f x = k then (k, x :: run) :: rest else (f x, [x]) :: (k, run) :: rest

/-- Model of `itertools.groupby(seq, f)`: the list of maximal runs of
elements with equal key, in input order, each tagged with its key. -/
def groupby (f : α → Bool) : List α → List (Bool × List α)
  | [] => []
  | x :: xs => groupby_step f x (groupby f xs)

/-- The `partitions` dict built on lines 71-74: the groupby runs with each
run projected to its column names. Duplicate keys are resolved later by
`dict_get` with Python dict semantics (last insertion wins). -/
def partitions (cols : List Column) : List (Bool × List String) :=
  (groupby is_counter_kv cols).map (fun g => (g.1, g.2.map Prod.fst))

/-- Python `dict(pairs).get(k, [])`: the value of the last pair with key `k`,
or `[]` when no pair has key `k`. -/
def dict_get (l : List (Bool × List String)) (k : Bool) : List String :=
  match l.reverse.find? (fun g => g.1 == k) with
  | some g => g.2
  | none => []

/-- `counters = partitions.get(True, [])` (line 79). -/
def counters_of (cols : List Column) : List String :=
  dict_get (partitions cols) true

/-- `non_counters = partitions.get(False, [])` (line 80). -/
def non_counters_of (cols : List Column) : List String :=
  dict_get (partitions cols) false

/-- The `SET` clause of the counter `UPDATE` (line 85): one
`c = c + value` per counter column whose encoded value is not `NULL`. -/
def update_set_clause (counters : List String) (values : String → String) : String :=
  String.intercalate ", "
    ((counters.filter (fun c => values c != "NULL")).map
      (fun c => c ++ " = " ++ c ++ " + " ++ values c))

/-- The `WHERE` clause of the counter `UPDATE` (line 86): one equality per
non-counter column, joined by `AND`. -/
def update_where_clause (non_counters : List String) (values : String → String) : String :=
  String.intercalate " AND " (non_counters.map (fun c => c ++ " = " ++ values c))

/-- The quoted column list of the `INSERT` (line 99), restricted to columns
whose encoded value is not `NULL`. -/
def insert_columns_clause (columns : List String) (values : String → String) : String :=
  String.intercalate ", "
    ((columns.filter (fun c => values c != "NULL")).map (fun c => "\"" ++ c ++ "\""))

/-- The value list of the `INSERT` (line 100), restricted to columns whose
encoded value is not `NULL`. -/
def insert_values_clause (columns : List String) (values : String → String) : String :=
  String.intercalate ", " ((columns.filter (fun c => values c != "NULL")).map values)

/-- `make_row_encoder` (lines 70-102) applied to an encoded row `values`:
partition the columns with groupby plus a last-wins dict, then emit either a
counter `UPDATE` (when the counter partition is non-empty) or an `INSERT`. -/
def make_row_encoder (keyspace tablename : String) (cols : List Column)
    (values : String → String) : String :=
  let counters := counters_of cols
  let non_counters := non_counters_of cols
  if 0 < counters.length then
    "UPDATE \"" ++ keyspace ++ "\".\"" ++ tablename ++ "\" SET " ++
      update_set_clause counters values ++ " WHERE " ++
      update_where_clause non_counters values
  else
    let columns := counters ++ non_counters
    "INSERT INTO \"" ++ keyspace ++ "\".\"" ++ tablename ++ "\" (" ++
      insert_columns_clause columns values ++ ") VALUES (" ++
      insert_values_clause columns values ++ ")"

/-- The driver call `session.encoder.cql_encode_all_types(None)`: the
DataStax encoder renders Python `None` as the literal `NULL` (this is the
NULL sentinel of the spec). -/
def cql_encode_all_types_none : String := "NULL"

/-- `make_value_encoder` (lines 63-65): wrap a per-type encoder `e` so that
an absent (`None`) cell is rendered through the generic encoder (hence as
`NULL`) and any present value is delegated to `e`. -/
def make_value_encoder (e : α → String) : Option α → String :=
  fun v =>
    match v with
    | none => cql_encode_all_types_none
    | some x => e x

/-! ### Spec-side statement builders (for refinement comparison)

These two definitions follow the words of the specification, section 4.2:
the partition is a direct order-preserving filter of the full column
sequence, not the groupby/dict construction of the source. -/

/-- Modelled from the spec (section 4.2, counter branch): `SET` from exactly
the non-NULL counter columns of the descriptor, `WHERE` from every
non-counter column of the descriptor, both in descriptor order. -/
def spec_update (keyspace tablename : String) (cols : List Column)
    (values : String → String) : String :=
  let counters := (cols.filter is_counter_kv).map Prod.fst
  let non_counters := (cols.filter (fun kv => !is_counter_kv kv)).map Prod.fst
  "UPDATE \"" ++ keyspace ++ "\".\"" ++ tablename ++ "\" SET " ++
    update_set_clause counters values ++ " WHERE " ++
    update_where_clause non_counters values

/-- Modelled from the spec (section 4.2, counter-free branch): column and
value lists over exactly the non-NULL columns of the descriptor, in
descriptor order and positionally aligned. -/
def spec_insert (keyspace tablename : String) (cols : List Column)
    (values : String → String) : String :=
  let columns := cols.map Prod.fst
  "INSERT INTO \"" ++ keyspace ++ "\".\"" ++ tablename ++ "\" (" ++
    insert_columns_clause columns values ++ ") VALUES (" ++
    insert_values_clause columns values ++ ")"

/-! ### Table exporter loop (cassandradump.py lines 41-117) -/

/-- The observable outcome of one `table_to_cqlfile` call: the statements
written to the file, the final value of the row counter `cnt`, and the
return value of the Python function. -/
structure ExportResult where
  written : List String
  cnt : Nat
  ret : Option Nat
  deriving DecidableEq

/-- The `for row in rows` loop (lines 107-111): per row, write the encoded
statement followed by `;` and a newline, and increment `cnt`. The progress
dots (lines 113-117) are output-only and not part of the state. -/
def export_loop (enc : (String → String) → String) :
    List String × Nat → List (String → String) → List String × Nat
  | acc, [] => acc
  | acc, v :: vs => export_loop enc (acc.1 ++ [enc v ++ ";\n"], acc.2 + 1) vs

/-- `table_to_cqlfile` (lines 41-117) on pre-encoded rows (each row given as
its encoded `values` dict from line 108): runs the write loop and falls off
the end of the function, so the Python return value is `None` (`ret = none`).
The query construction and the driver-level value encoding are outside the
model. -/
def table_to_cqlfile (keyspace tablename : String) (cols : List Column)
    (rows : List (String → String)) : ExportResult :=
  let p := export_loop (make_row_encoder keyspace tablename cols) ([], 0) rows
  ⟨p.1, p.2, none⟩

/-! ### Import replayer and concurrency classifier (lines 120-169)

The import side manipulates file lines and statement buffers, so statements
are modelled as `List Char`. -/

/-- Character-list model of a Python string on the import path. -/
abbrev Chars := List Char

/-- Shorthand turning a Lean string literal into its character list. -/
def str (s : String) : Chars := s.toList

/-- The newline character. -/
def nl : Char := '\n'

/-- The statement terminator `;` + newline (the `";\n"` of lines 109 and
140). -/
def delim : Chars := [';', '\n']

/-- Model of `statement.endswith(";\n")`: the last two characters are `;`
then newline. -/
def delim_ends (u : Chars) : Bool :=
  match u.reverse with
  | d :: c :: _ => c == ';' && d == nl
  | _ => false

/-- Model of `a.startswith(b)` as used on line 124 (is `p` an initial
segment of `s`). -/
def starts_with : Chars → Chars → Bool
  | [], _ => true
  | _ :: _, [] => false
  | p :: ps, c :: cs => p == c && starts_with ps cs

/-- `can_execute_concurrently` (lines 120-127): `False` whenever the
`--sync` flag is set, otherwise `True` exactly when the upper-cased
statement starts with `INSERT` or `UPDATE`. -/
def can_execute_concurrently (sync : Bool) (statement : Chars) : Bool :=
  if sync then false
  else
    if starts_with (str "INSERT") (statement.map Char.toUpper) ||
        starts_with (str "UPDATE") (statement.map Char.toUpper) then true
    else false

/-- `CONCURRENT_BATCH_SIZE` (line 22). -/
def CONCURRENT_BATCH_SIZE : Nat := 1000

/-- One submission to the execution sink: either
`cassandra.concurrent.execute_concurrent(session, batch)` or a synchronous
`session.execute(statement)`. -/
inductive Event
  | batch (stmts : List Chars)
  | sync (stmt : Chars)
  deriving DecidableEq

/-- The loop state of `import_data`: the accumulation buffer `statement`,
the pending `concurrent_statements` batch, and the trace of submissions made
so far, in submission order. -/
structure ImpState where
  statement : Chars
  concurrent : List Chars
  trace : List Event
  deriving DecidableEq

/-- One iteration of the `for line in f` loop (lines 138-158): append the
line to the buffer; once the buffer ends with `;\n`, either add it to the
pending batch (flushing the batch at `CONCURRENT_BATCH_SIZE`) when the
classifier allows concurrency, or flush the pending batch and execute the
statement synchronously, then reset the buffer. -/
def import_step (sync : Bool) (st : ImpState) (line : Chars) : ImpState :=
  let statement := st.statement ++ line
  if delim_ends statement then
    if can_execute_concurrently sync statement then
      let cs := st.concurrent ++ [statement]
      if CONCURRENT_BATCH_SIZE ≤ cs.length then
        ⟨[], [], st.trace ++ [Event.batch cs]⟩
      else
        ⟨[], cs, st.trace⟩
    else
      let tr :=
        if st.concurrent = [] then st.trace
        else st.trace ++ [Event.batch st.concurrent]
      ⟨[], [], tr ++ [Event.sync statement]⟩
  else
    ⟨statement, st.concurrent, st.trace⟩

/-- The whole `for line in f` loop as a fold over the file lines. -/
def import_loop (sync : Bool) : ImpState → List Chars → ImpState
  | st, [] => st
  | st, l :: ls => import_loop sync (import_step sync st l) ls

/-- The epilogue of `import_data` (lines 160-164): flush any non-empty
pending batch, then execute any non-empty trailing buffer synchronously. -/
def finish_run (st : ImpState) : List Event :=
  let tr :=
    if st.concurrent = [] then st.trace
    else st.trace ++ [Event.batch st.concurrent]
  if st.statement = [] then tr else tr ++ [Event.sync st.statement]

/-- The submission trace of `import_data` (lines 130-169) on a given list of
file lines: run the loop from the empty state, then the epilogue. -/
def import_data (sync : Bool) (lines : List Chars) : List Event :=
  finish_run (import_loop sync ⟨[], [], []⟩ lines)

/-- The statements of a single submission event, in submission order. -/
def event_stmts : Event → List Chars
  | Event.batch ss => ss
  | Event.sync s => [s]

/-- All statements of a trace, flattened in submission order. Reordering by
the driver happens only inside one `batch` event. -/
def trace_stmts (evs : List Event) : List Chars :=
  (evs.map event_stmts).flatten

/-- The statement-reassembly skeleton of the same loop (lines 138-140, 154):
fold the lines into a buffer, emitting the buffer whenever it ends with the
delimiter; returns the emitted statements and the leftover buffer. -/
def parse_go : Chars → List Chars → List Chars × Chars
  | buf, [] => ([], buf)
  | buf, l :: ls =>
    let buf2 := buf ++ l
    if delim_ends buf2 then
      let p := parse_go [] ls
      (buf2 :: p.1, p.2)
    else
      parse_go buf2 ls

/-- All statements the replayer reconstitutes from the file lines, with the
trailing non-empty fragment included (line 163). -/
def parse_statements (lines : List Chars) : List Chars :=
  let p := parse_go [] lines
  if p.2 = [] then p.1 else p.1 ++ [p.2]

/-- The trailing fragment left in the buffer at end of input. -/
def parse_residual (lines : List Chars) : Chars :=
  (parse_go [] lines).2

/-! ### File framing (lines 107-109 produce, 138-140 consume) -/

/-- The framing of one statement in the output file, `"%s;\n" % statement`
(line 109). -/
def write_framed (s : Chars) : Chars := s ++ delim

/-- The bytes of a whole exported statement stream. -/
def render (stmts : List Chars) : Chars := (stmts.map write_framed).flatten

/-- Python text-file line iteration: split a character stream after every
newline, keeping the newline at the end of each line; a final fragment
without a newline is yielded as a last line. -/
def splitLines : Chars → List Chars
  | [] => []
  | c :: cs =>
    if c = nl then [c] :: splitLines cs
    else
      match splitLines cs with
      | [] => [[c]]
      | l :: ls => (c :: l) :: ls

/-- Remove the two trailing delimiter characters from a framed statement. -/
def strip_delim (u : Chars) : Chars := u.dropLast.dropLast

/-- Buffer well-formedness during line-wise reassembly: empty, or ending in
a newline (every fully consumed line ends in a newline). -/
def buf_ok (u : Chars) : Bool :=
  match u.reverse with
  | [] => true
  | c :: _ => c == nl

/-! ### Configuration validation and effect order of main (lines 192-206,
351-396) -/

/-- The run configuration, restricted to the fields the validation logic
reads. `Option` distinguishes an unsupplied argument (`None`) from a
supplied one. -/
structure Args where
  keyspace : Option (List String)
  cf : Option (List String)
  filter : Option (List String)
  import_file : Option String
  export_file : Option String
  s3_upload : Bool
  aws_access_key : Option String
  aws_secret_key : Option String
  s3_bucket_name : Option String
  deriving DecidableEq

/-- Externally visible effects of a run, in program order. The trace is
truncated at a `sys.exit`. -/
inductive Effect
  | connectCluster
  | stderrWrite
  | exitProc (code : Nat)
  | openExportFile
  | exportBody
  | importBody
  deriving DecidableEq

/-- The count of supplied selection modes (lines 193-202). -/
def selection_options (a : Args) : Nat :=
  (if a.keyspace.isSome then 1 else 0) +
    (if a.cf.isSome then 1 else 0) +
    (if a.filter.isSome then 1 else 0)

/-- The effect prefix of `export_data` (lines 192-208 onward): when more
than one selection mode is supplied, write the error and exit with status 1
before opening the export file; otherwise open the export file and proceed
with the export body. -/
def export_data_trace (a : Args) : List Effect :=
  if 1 < selection_options a then
    [Effect.stderrWrite, Effect.exitProc 1]
  else
    [Effect.openExportFile, Effect.exportBody]

/-- The effect trace of `main` (lines 351-396): argument validation exits,
then `setup_cluster()` (which connects to the cluster, line 335), and then
the replay path or the export path. -/
def main_trace (a : Args) : List Effect :=
  if a.import_file.isNone && a.export_file.isNone then
    [Effect.stderrWrite, Effect.exitProc 1]
  else if a.import_file.isSome && a.export_file.isSome then
    [Effect.stderrWrite, Effect.exitProc 1]
  else if a.s3_upload &&
      (a.aws_access_key.isNone || a.aws_secret_key.isNone ||
        a.s3_bucket_name.isNone) then
    [Effect.stderrWrite, Effect.exitProc 1]
  else
    Effect.connectCluster ::
      (if a.import_file.isSome then [Effect.importBody] else export_data_trace a)

/-- The effects that happen strictly before the first process exit. -/
def pre_failure (tr : List Effect) : List Effect :=
  tr.takeWhile (fun e => match e with | Effect.exitProc _ => false | _ => true)

/-! ### Concrete instances used by witness and counterexample theorems -/

/-- A typical counter table: primary key first, then the counter column. -/
def c1w_cols : List Column := [("pk", "int"), ("counter_col", "counter")]

/-- The encoded row of the spec example: `pk = 1`, `counter_col = 5`. -/
def c1w_values : String → String := fun c => if c = "pk" then "1" else "5"

/-- An interleaved column sequence: counter, non-counter, counter. -/
def c1x_cols : List Column := [("c1", "counter"), ("p", "int"), ("c2", "counter")]

/-- An encoded row with no NULL cells for the interleaved sequence. -/
def c1x_values : String → String :=
  fun c => if c = "c1" then "7" else if c = "p" then "1" else "2"

/-- A contiguous counter table with two counter columns. -/
def c2w_cols : List Column := [("pk", "int"), ("c1", "counter"), ("c2", "counter")]

/-- An interleaved sequence whose leading column is silently dropped by the
groupby/dict partition. -/
def c2x_cols : List Column := [("a", "int"), ("b", "counter"), ("c", "int")]

/-- A counter-free table with two columns. -/
def c3w_cols : List Column := [("a", "int"), ("b", "text")]

/-- An encoded row whose second cell is NULL. -/
def c3w_values : String → String := fun c => if c = "a" then "1" else "NULL"

/-- A counter table whose counter cell is NULL in the fetched row. -/
def c10w_cols : List Column := [("pk", "int"), ("cnt", "counter")]

/-- The encoded row for it: `pk = 1`, counter cell NULL. -/
def c10w_values : String → String := fun c => if c = "pk" then "1" else "NULL"

/-- The file lines of the replay-ordering example from the spec: an INSERT,
a DROP, another INSERT. -/
def c4_lines : List Chars :=
  [str "INSERT INTO A (x) VALUES (1);\n",
   str "DROP TABLE X;\n",
   str "INSERT INTO B (x) VALUES (2);\n"]

/-- A stream whose last line is a fragment with no delimiter. -/
def c7_lines : List Chars :=
  [str "INSERT INTO A (x) VALUES (1);\n", str "SELEC"]

/-- Two statements, the second spanning two lines, neither containing an
internal line that ends in a semicolon. -/
def c6_stmts : List Chars := [str "INSERT INTO t (a) VALUES (1)", str "ab\ncd"]

/-- An export run supplying both a keyspace list and a filter list. -/
def c8_args : Args :=
  ⟨some ["ks"], none, some ["ks.t where x = 1"], none, some "out.cql",
    false, none, none, none⟩

/-! ## Lemmas about the groupby partition -/

theorem groupby_nil (f : α → Bool) : groupby f [] = [] := rfl

theorem groupby_cons (f : α → Bool) (x : α) (xs : List α) :
    groupby f (x :: xs) = groupby_step f x (groupby f xs) := rfl

/-- The runs of `groupby` concatenate back to the input list. -/
theorem groupby_flatten (f : α → Bool) (l : List α) :
    ((groupby f l).map Prod.snd).flatten = l := by
  induction l with
  | nil => rfl
  | cons x xs ih =>
    rw [groupby_cons]
    cases hg : groupby f xs with
    | nil =>
      rw [hg] at ih
      simp only [List.map_nil, List.flatten_nil] at ih
      simp [groupby_step, ← ih]
    | cons g rest =>
      obtain ⟨k, run⟩ := g
      rw [hg] at ih
      simp only [groupby_step]
      by_cases hfx : f x = k
      · rw [if_pos hfx]
        simp only [List.map_cons, List.flatten_cons] at ih ⊢
        simp [← ih]
      · rw [if_neg hfx]
        simp only [List.map_cons, List.flatten_cons] at ih ⊢
        simp [← ih]

/-- Every run of `groupby` is non-empty and homogeneous for its key. -/
theorem groupby_runs (f : α → Bool) (l : List α) :
    ∀ g ∈ groupby f l, g.2 ≠ [] ∧ ∀ x ∈ g.2, f x = g.1 := by
  induction l with
  | nil => simp [groupby_nil]
  | cons x xs ih =>
    rw [groupby_cons]
    cases hg : groupby f xs with
    | nil =>
      intro g hgmem
      simp only [groupby_step, List.mem_singleton] at hgmem
      subst hgmem
      simp
    | cons g0 rest =>
      obtain ⟨k, run⟩ := g0
      rw [hg] at ih
      simp only [groupby_step]
      by_cases hfx : f x = k
      · rw [if_pos hfx]
        intro g hgmem
        rcases List.mem_cons.mp hgmem with hhead | htail
        · subst hhead
          refine ⟨by simp, ?_⟩
          intro y hy
          rcases List.mem_cons.mp hy with hyx | hyrun
          · subst hyx; exact hfx
          · exact (ih (k, run) (by simp)).2 y hyrun
        · exact ih g (by simp [htail])
      · rw [if_neg hfx]
        intro g hgmem
        rcases List.mem_cons.mp hgmem with hhead | htail
        · subst hhead
          exact ⟨by simp, by simp⟩
        · exact ih g htail

/-- Adjacent runs of `groupby` carry different keys. -/
theorem groupby_alternates (f : α → Bool) (l : List α) :
    List.Chain' (fun g h => g.1 ≠ h.1) (groupby f l) := by
  induction l with
  | nil => simp [groupby_nil]
  | cons x xs ih =>
    rw [groupby_cons]
    cases hg : groupby f xs with
    | nil => simp [groupby_step]
    | cons g0 rest =>
      obtain ⟨k, run⟩ := g0
      rw [hg] at ih
      simp only [groupby_step]
      by_cases hfx : f x = k
      · rw [if_pos hfx]
        rcases List.chain'_cons'.mp ih with ⟨hhead, htail⟩
        exact List.chain'_cons'.mpr ⟨hhead, htail⟩
      · rw [if_neg hfx]
        refine List.chain'_cons'.mpr ⟨?_, ih⟩
        intro y hy
        simp only [List.head?_cons, Option.mem_def, Option.some.injEq] at hy
        subst hy
        simpa using hfx

/-- A non-empty homogeneous list groups into exactly one run. -/
theorem groupby_all_eq (f : α → Bool) (k : Bool) :
    ∀ (l : List α), l ≠ [] → (∀ x ∈ l, f x = k) → groupby f l = [(k, l)] := by
  intro l
  induction l with
  | nil => intro h; exact absurd rfl h
  | cons x xs ih =>
    intro _ h
    have hx : f x = k := h x (by simp)
    rw [groupby_cons]
    cases xs with
    | nil => simp [groupby, groupby_step, hx]
    | cons y ys =>
      rw [ih (by simp) (fun z hz => h z (by simp [hz]))]
      simp [groupby_step, hx]

/-- A list on which a predicate is everywhere true filters to itself, and
filters to nothing under the negated predicate. -/
theorem filter_homog_true {p : α → Bool} {l : List α} (h : ∀ a ∈ l, p a = true) :
    l.filter p = l ∧ l.filter (fun a => !p a) = [] :=
  ⟨List.filter_eq_self.mpr h,
    List.filter_eq_nil_iff.mpr (by intro a ha; simp [h a ha])⟩

/-- A list on which a predicate is everywhere false filters to nothing, and
filters to itself under the negated predicate. -/
theorem filter_homog_false {p : α → Bool} {l : List α} (h : ∀ a ∈ l, p a = false) :
    l.filter p = [] ∧ l.filter (fun a => !p a) = l :=
  ⟨List.filter_eq_nil_iff.mpr (by intro a ha; simp [h a ha]),
    List.filter_eq_self.mpr (by intro a ha; simp [h a ha])⟩

/-- When the column sequence produces at most two runs (equivalently: the
counter columns are contiguous and the non-counter columns are contiguous),
the groupby/dict partition agrees with the direct order-preserving filters
of the column sequence. -/
theorem partition_filter_eq (cols : List Column)
    (h : (groupby is_counter_kv cols).length ≤ 2) :
    counters_of cols = (cols.filter is_counter_kv).map Prod.fst ∧
      non_counters_of cols = (cols.filter (fun kv => !is_counter_kv kv)).map Prod.fst := by
  have hflat := groupby_flatten is_counter_kv cols
  have hruns := groupby_runs is_counter_kv cols
  have hchain := groupby_alternates is_counter_kv cols
  unfold counters_of non_counters_of partitions
  cases hg : groupby is_counter_kv cols with
  | nil =>
    rw [hg] at hflat
    simp only [List.map_nil, List.flatten_nil] at hflat
    rw [← hflat]
    exact ⟨rfl, rfl⟩
  | cons g1 t =>
    obtain ⟨k1, r1⟩ := g1
    cases t with
    | nil =>
      rw [hg] at hflat hruns
      simp only [List.map_cons, List.map_nil, List.flatten_cons, List.flatten_nil,
        List.append_nil] at hflat
      have h1 := (hruns (k1, r1) (by simp)).2
      rw [← hflat]
      cases k1 with
      | true =>
        obtain ⟨ha, hb⟩ := filter_homog_true h1
        simp [dict_get, ha, hb]
      | false =>
        obtain ⟨ha, hb⟩ := filter_homog_false h1
        simp [dict_get, ha, hb]
    | cons g2 t2 =>
      obtain ⟨k2, r2⟩ := g2
      cases t2 with
      | nil =>
        rw [hg] at hflat hruns hchain
        simp only [List.map_cons, List.map_nil, List.flatten_cons, List.flatten_nil,
          List.append_nil] at hflat
        have hf1 := (hruns (k1, r1) (by simp)).2
        have hf2 := (hruns (k2, r2) (by simp)).2
        have hne : k1 ≠ k2 := by
          have := List.chain'_cons'.mp hchain
          exact this.1 (k2, r2) (by simp)
        rw [← hflat, List.filter_append, List.filter_append]
        cases k1 with
        | true =>
          have hk2 : k2 = false := by cases k2 <;> simp_all
          subst hk2
          obtain ⟨ha1, hb1⟩ := filter_homog_true hf1
          obtain ⟨ha2, hb2⟩ := filter_homog_false hf2
          simp [dict_get, ha1, hb1, ha2, hb2]
        | false =>
          have hk2 : k2 = true := by cases k2 <;> simp_all
          subst hk2
          obtain ⟨ha1, hb1⟩ := filter_homog_false hf1
          obtain ⟨ha2, hb2⟩ := filter_homog_true hf2
          simp [dict_get, ha1, hb1, ha2, hb2]
      | cons g3 t3 =>
        rw [hg] at h
        simp at h

/-- Every name in the code's counter partition names a counter column of the
descriptor. -/
theorem counters_of_sound (cols : List Column) :
    ∀ c ∈ counters_of cols, ∃ kv ∈ cols, kv.1 = c ∧ is_counter_kv kv = true := by
  intro c hc
  unfold counters_of dict_get at hc
  cases hfind : (partitions cols).reverse.find? (fun g => g.1 == true) with
  | none => rw [hfind] at hc; simp at hc
  | some g =>
    rw [hfind] at hc
    have hkey : g.1 = true := by simpa using List.find?_some hfind
    have hmem : g ∈ partitions cols := List.mem_reverse.mp (List.mem_of_find?_eq_some hfind)
    unfold partitions at hmem
    obtain ⟨r, hr, hrg⟩ := List.mem_map.mp hmem
    have hcr : c ∈ r.2.map Prod.fst := by rw [← hrg] at hc; exact hc
    obtain ⟨kv, hkv, hkvc⟩ := List.mem_map.mp hcr
    refine ⟨kv, ?_, hkvc, ?_⟩
    · rw [← groupby_flatten is_counter_kv cols]
      exact List.mem_flatten.mpr ⟨r.2, List.mem_map_of_mem Prod.snd hr, hkv⟩
    · have hrun := (groupby_runs is_counter_kv cols r hr).2 kv hkv
      have hr1 : r.1 = g.1 := by rw [← hrg]
      rw [hrun, hr1, hkey]

/-- If some column is a counter column then the code's counter partition is
non-empty (so the synthesizer takes the `UPDATE` branch). -/
theorem counters_of_ne_nil (cols : List Column)
    (h : ∃ kv ∈ cols, is_counter_kv kv = true) : counters_of cols ≠ [] := by
  obtain ⟨kv, hmem, hctr⟩ := h
  have hflat := groupby_flatten is_counter_kv cols
  rw [← hflat] at hmem
  obtain ⟨m, hm, hkvm⟩ := List.mem_flatten.mp hmem
  obtain ⟨r, hr, hrm⟩ := List.mem_map.mp hm
  have hkey : r.1 = true := by
    rw [← (groupby_runs is_counter_kv cols r hr).2 kv (by rw [hrm]; exact hkvm)]
    exact hctr
  unfold counters_of dict_get
  cases hfind : (partitions cols).reverse.find? (fun g => g.1 == true) with
  | none =>
    exfalso
    have hmemp : (r.1, r.2.map Prod.fst) ∈ (partitions cols).reverse := by
      rw [List.mem_reverse]
      unfold partitions
      exact List.mem_map.mpr ⟨r, hr, rfl⟩
    have := List.find?_eq_none.mp hfind _ hmemp
    simp [hkey] at this
  | some g =>
    have hmemg : g ∈ partitions cols := List.mem_reverse.mp (List.mem_of_find?_eq_some hfind)
    obtain ⟨r2, hr2, hr2g⟩ := List.mem_map.mp hmemg
    have hr2ne : r2.2 ≠ [] := (groupby_runs is_counter_kv cols r2 hr2).1
    rw [← hr2g]
    simpa using hr2ne

/-- On a counter-free column sequence the partition is trivial: no counters,
and the non-counter partition is the full name sequence in order. -/
theorem partition_counter_free (cols : List Column)
    (h : ∀ kv ∈ cols, is_counter_kv kv = false) :
    counters_of cols = [] ∧ non_counters_of cols = cols.map Prod.fst := by
  cases cols with
  | nil => exact ⟨rfl, rfl⟩
  | cons kv0 t =>
    have hgb := groupby_all_eq is_counter_kv false (kv0 :: t) (by simp) h
    unfold counters_of non_counters_of partitions
    rw [hgb]
    simp [dict_get]

/-! ## Lemmas about the import replayer -/

theorem trace_stmts_nil : trace_stmts [] = [] := rfl

theorem trace_stmts_append (a b : List Event) :
    trace_stmts (a ++ b) = trace_stmts a ++ trace_stmts b := by
  unfold trace_stmts
  simp

theorem trace_stmts_batch (ss : List Chars) :
    trace_stmts [Event.batch ss] = ss := by
  unfold trace_stmts event_stmts
  simp

theorem trace_stmts_sync (s : Chars) : trace_stmts [Event.sync s] = [s] := by
  unfold trace_stmts event_stmts
  simp

/-- The submission trace of the loop plus epilogue lists, in order, exactly
the statements that the line-reassembly skeleton extracts, for any starting
buffer, pending batch and trace. -/
theorem import_loop_parse (sync : Bool) :
    ∀ (lines : List Chars) (buf : Chars) (cs : List Chars) (tr : List Event),
      trace_stmts (finish_run (import_loop sync ⟨buf, cs, tr⟩ lines)) =
        trace_stmts tr ++ cs ++
          ((parse_go buf lines).1 ++
            (if (parse_go buf lines).2 = [] then [] else [(parse_go buf lines).2])) := by
  intro lines
  induction lines with
  | nil =>
    intro buf cs tr
    show trace_stmts (finish_run ⟨buf, cs, tr⟩) = _
    unfold finish_run parse_go
    by_cases hcs : cs = [] <;> by_cases hbuf : buf = [] <;>
      simp [hcs, hbuf, trace_stmts, event_stmts]
  | cons l ls ih =>
    intro buf cs tr
    show trace_stmts (finish_run (import_loop sync (import_step sync ⟨buf, cs, tr⟩ l) ls)) = _
    have hparse :
        parse_go buf (l :: ls) =
          if delim_ends (buf ++ l) then
            ((buf ++ l) :: (parse_go [] ls).1, (parse_go [] ls).2)
          else parse_go (buf ++ l) ls := by
      simp only [parse_go]
    by_cases hd : delim_ends (buf ++ l)
    · rw [hparse, if_pos hd]
      by_cases hc : can_execute_concurrently sync (buf ++ l)
      · by_cases hsize : CONCURRENT_BATCH_SIZE ≤ cs.length + 1
        · have hstep : import_step sync ⟨buf, cs, tr⟩ l =
              ⟨[], [], tr ++ [Event.batch (cs ++ [buf ++ l])]⟩ := by
            simp [import_step, hd, hc, hsize]
          rw [hstep, ih]
          simp [trace_stmts_append, trace_stmts, event_stmts]
        · have hstep : import_step sync ⟨buf, cs, tr⟩ l =
              ⟨[], cs ++ [buf ++ l], tr⟩ := by
            simp [import_step, hd, hc, hsize]
          rw [hstep, ih]
          simp [trace_stmts_append, trace_stmts, event_stmts]
      · have hstep : import_step sync ⟨buf, cs, tr⟩ l =
            ⟨[], [],
              (if cs = [] then tr else tr ++ [Event.batch cs]) ++
                [Event.sync (buf ++ l)]⟩ := by
          simp [import_step, hd, hc]
        rw [hstep, ih]
        by_cases hcs : cs = [] <;>
          simp [hcs, trace_stmts_append, trace_stmts, event_stmts]
    · rw [hparse, if_neg hd]
      have hstep : import_step sync ⟨buf, cs, tr⟩ l = ⟨buf ++ l, cs, tr⟩ := by
        simp [import_step, hd]
      rw [hstep, ih]

/-- Batch submissions only ever contain statements the classifier approved:
the pending batch and every flushed batch stay homogeneous. -/
theorem import_loop_batches_safe (sync : Bool) :
    ∀ (lines : List Chars) (st : ImpState),
      (∀ s ∈ st.concurrent, can_execute_concurrently sync s = true) →
      (∀ ss, Event.batch ss ∈ st.trace → ∀ s ∈ ss, can_execute_concurrently sync s = true) →
      (∀ s ∈ (import_loop sync st lines).concurrent,
          can_execute_concurrently sync s = true) ∧
        (∀ ss, Event.batch ss ∈ (import_loop sync st lines).trace →
          ∀ s ∈ ss, can_execute_concurrently sync s = true) := by
  intro lines
  induction lines with
  | nil =>
    intro st hcs htr
    exact ⟨hcs, htr⟩
  | cons l ls ih =>
    intro st hcs htr
    obtain ⟨sb, sc, st3⟩ := st
    simp only [import_loop]
    by_cases hd : delim_ends (sb ++ l)
    · by_cases hc : can_execute_concurrently sync (sb ++ l)
      · by_cases hsize : CONCURRENT_BATCH_SIZE ≤ sc.length + 1
        · have hstep : import_step sync ⟨sb, sc, st3⟩ l =
              ⟨[], [], st3 ++ [Event.batch (sc ++ [sb ++ l])]⟩ := by
            simp [import_step, hd, hc, hsize]
          rw [hstep]
          refine ih _ (by simp) ?_
          intro ss hss s hs
          rcases List.mem_append.mp hss with h1 | h1
          · exact htr ss h1 s hs
          · have hsseq : ss = sc ++ [sb ++ l] := by
              have := List.mem_singleton.mp h1
              simpa using this
            rw [hsseq] at hs
            rcases List.mem_append.mp hs with h2 | h2
            · exact hcs s h2
            · rw [List.mem_singleton.mp h2]
              exact hc
        · have hstep : import_step sync ⟨sb, sc, st3⟩ l =
              ⟨[], sc ++ [sb ++ l], st3⟩ := by
            simp [import_step, hd, hc, hsize]
          rw [hstep]
          refine ih _ ?_ htr
          intro s hs
          rcases List.mem_append.mp hs with h1 | h1
          · exact hcs s h1
          · rw [List.mem_singleton.mp h1]
            exact hc
      · have hstep : import_step sync ⟨sb, sc, st3⟩ l =
            ⟨[], [],
              (if sc = [] then st3 else st3 ++ [Event.batch sc]) ++
                [Event.sync (sb ++ l)]⟩ := by
          simp [import_step, hd, hc]
        rw [hstep]
        refine ih _ (by simp) ?_
        intro ss hss s hs
        rcases List.mem_append.mp hss with h1 | h1
        · by_cases hpcs : sc = []
          · rw [if_pos hpcs] at h1
            exact htr ss h1 s hs
          · rw [if_neg hpcs] at h1
            rcases List.mem_append.mp h1 with h2 | h2
            · exact htr ss h2 s hs
            · have hsseq : ss = sc := by
                have := List.mem_singleton.mp h2
                simpa using this
              rw [hsseq] at hs
              exact hcs s hs
        · have := List.mem_singleton.mp h1
          simp at this
    · have hstep : import_step sync ⟨sb, sc, st3⟩ l = ⟨sb ++ l, sc, st3⟩ := by
        simp [import_step, hd]
      rw [hstep]
      exact ih _ hcs htr

/-- The loop buffer evolves exactly like the reassembly buffer. -/
theorem import_loop_buffer (sync : Bool) :
    ∀ (lines : List Chars) (buf : Chars) (cs : List Chars) (tr : List Event),
      (import_loop sync ⟨buf, cs, tr⟩ lines).statement = (parse_go buf lines).2 := by
  intro lines
  induction lines with
  | nil => intro buf cs tr; rfl
  | cons l ls ih =>
    intro buf cs tr
    show (import_loop sync (import_step sync ⟨buf, cs, tr⟩ l) ls).statement = _
    have hparse :
        (parse_go buf (l :: ls)).2 =
          if delim_ends (buf ++ l) then (parse_go [] ls).2
          else (parse_go (buf ++ l) ls).2 := by
      simp only [parse_go]
      by_cases hd : delim_ends (buf ++ l) <;> simp [hd]
    by_cases hd : delim_ends (buf ++ l)
    · rw [hparse, if_pos hd]
      by_cases hc : can_execute_concurrently sync (buf ++ l)
      · by_cases hsize : CONCURRENT_BATCH_SIZE ≤ cs.length + 1
        · have hstep : import_step sync ⟨buf, cs, tr⟩ l =
              ⟨[], [], tr ++ [Event.batch (cs ++ [buf ++ l])]⟩ := by
            simp [import_step, hd, hc, hsize]
          rw [hstep, ih]
        · have hstep : import_step sync ⟨buf, cs, tr⟩ l =
              ⟨[], cs ++ [buf ++ l], tr⟩ := by
            simp [import_step, hd, hc, hsize]
          rw [hstep, ih]
      · have hstep : import_step sync ⟨buf, cs, tr⟩ l =
            ⟨[], [],
              (if cs = [] then tr else tr ++ [Event.batch cs]) ++
                [Event.sync (buf ++ l)]⟩ := by
          simp [import_step, hd, hc]
        rw [hstep, ih]
    · rw [hparse, if_neg hd]
      have hstep : import_step sync ⟨buf, cs, tr⟩ l = ⟨buf ++ l, cs, tr⟩ := by
        simp [import_step, hd]
      rw [hstep, ih]

/-- The reassembly buffer never ends with the delimiter: a fired buffer is
reset at once, so any leftover fragment is genuinely unterminated. -/
theorem parse_residual_no_delim :
    ∀ (lines : List Chars) (buf : Chars), delim_ends buf = false →
      delim_ends (parse_go buf lines).2 = false := by
  intro lines
  induction lines with
  | nil => intro buf h; exact h
  | cons l ls ih =>
    intro buf h
    simp only [parse_go]
    by_cases hd : delim_ends (buf ++ l) = true
    · rw [if_pos hd]
      exact ih [] rfl
    · rw [if_neg hd]
      exact ih (buf ++ l) (by simpa using hd)

/-! ## Lemmas about line splitting and the delimiter framing -/

theorem splitLines_nil : splitLines [] = [] := rfl

/-- Splitting a non-empty stream yields at least one line. -/
theorem splitLines_ne_nil (u : Chars) (h : u ≠ []) : splitLines u ≠ [] := by
  cases u with
  | nil => exact absurd rfl h
  | cons c cs =>
    simp only [splitLines]
    by_cases hc : c = nl
    · rw [if_pos hc]; simp
    · rw [if_neg hc]
      cases splitLines cs <;> simp

/-- Splitting a newline-free prefix followed by a newline: the first line is
that prefix plus the newline. -/
theorem splitLines_no_nl_cons :
    ∀ (a : Chars) (b : Chars), (∀ c ∈ a, c ≠ nl) →
      splitLines (a ++ nl :: b) = (a ++ [nl]) :: splitLines b := by
  intro a
  induction a with
  | nil =>
    intro b _
    simp [splitLines]
  | cons c a' ih =>
    intro b h
    have hc : c ≠ nl := h c (by simp)
    show splitLines (c :: (a' ++ nl :: b)) = _
    simp only [splitLines]
    rw [if_neg hc, ih b (fun d hd => h d (by simp [hd]))]
    simp

/-- Splitting distributes over concatenation at a newline boundary. -/
theorem splitLines_append_nl :
    ∀ (a : Chars) (v : Chars),
      splitLines ((a ++ [nl]) ++ v) = splitLines (a ++ [nl]) ++ splitLines v := by
  intro a
  induction a with
  | nil =>
    intro v
    simp [splitLines]
  | cons c a' ih =>
    intro v
    by_cases hc : c = nl
    · subst hc
      show splitLines (nl :: (a' ++ [nl] ++ v)) = _
      simp only [splitLines, if_pos rfl]
      rw [show a' ++ [nl] ++ v = (a' ++ [nl]) ++ v by simp, ih]
      simp
    · show splitLines (c :: (a' ++ [nl] ++ v)) = _
      simp only [splitLines]
      rw [if_neg hc,
        show a' ++ [nl] ++ v = (a' ++ [nl]) ++ v by simp, ih]
      cases hsp : splitLines (a' ++ [nl]) with
      | nil => exact absurd hsp (splitLines_ne_nil _ (by simp))
      | cons l ls => simp [hc]

/-- The delimiter test on a buffer ending in two explicit characters. -/
theorem delim_ends_append2 (u : Chars) (c d : Char) :
    delim_ends (u ++ [c, d]) = (c == ';' && d == nl) := by
  simp [delim_ends, List.reverse_append]

/-- A framed statement always passes the delimiter test. -/
theorem delim_ends_framed (u : Chars) : delim_ends (u ++ delim) = true := by
  have := delim_ends_append2 u ';' nl
  simpa [delim, nl] using this

/-- Appending a bare newline to a well-formed buffer never fires the
delimiter test. -/
theorem delim_ends_buf_nl (buf : Chars) (h : buf_ok buf = true) :
    delim_ends (buf ++ [nl]) = false := by
  rcases List.eq_nil_or_concat buf with hb | ⟨b', y, hb⟩
  · subst hb
    rfl
  · rw [List.concat_eq_append] at hb
    subst hb
    have hy : y = nl := by
      simp [buf_ok, List.reverse_append] at h
      simpa using h
    subst hy
    rw [show b' ++ [nl] ++ [nl] = b' ++ [nl, nl] by simp, delim_ends_append2]
    simp [nl]

/-- Prepending a well-formed buffer does not change the delimiter test on a
full line (a line ends with a newline). -/
theorem delim_ends_buf_line (buf a : Chars) (h : buf_ok buf = true) :
    delim_ends (buf ++ (a ++ [nl])) = delim_ends (a ++ [nl]) := by
  rcases List.eq_nil_or_concat a with ha | ⟨a', x, ha⟩
  · subst ha
    simp only [List.nil_append]
    rw [delim_ends_buf_nl buf h]
    rfl
  · rw [List.concat_eq_append] at ha
    subst ha
    rw [show buf ++ (a' ++ [x] ++ [nl]) = (buf ++ a') ++ [x, nl] by simp,
      show a' ++ [x] ++ [nl] = a' ++ [x, nl] by simp,
      delim_ends_append2, delim_ends_append2]

/-- A buffer extended by a full line is still well-formed. -/
theorem buf_ok_append_line (buf a : Chars) :
    buf_ok (buf ++ (a ++ [nl])) = true := by
  simp [buf_ok, List.reverse_append, nl]

/-- Feeding the lines of one framed statement to the reassembly loop, from a
well-formed buffer and provided no line of the statement ends in the
delimiter, consumes exactly those lines and emits the buffer plus the framed
statement. -/
theorem parse_framed :
    ∀ (n : Nat) (s : Chars), s.length ≤ n →
      ∀ (buf : Chars) (rest : List Chars), buf_ok buf = true →
        (∀ l ∈ splitLines s, delim_ends l = false) →
        parse_go buf (splitLines (s ++ delim) ++ rest) =
          ((buf ++ (s ++ delim)) :: (parse_go [] rest).1, (parse_go [] rest).2) := by
  intro n
  induction n with
  | zero =>
    intro s hlen buf rest hbuf _
    have hs : s = [] := List.length_eq_zero.mp (Nat.le_zero.mp hlen)
    subst hs
    have hsplit : splitLines ([] ++ delim) = [delim] := by
      simp [delim, splitLines, nl]
    rw [hsplit]
    simp only [List.cons_append, List.nil_append, parse_go]
    rw [if_pos (delim_ends_framed buf)]
    simp
  | succ n ih =>
    intro s hlen buf rest hbuf hlines
    cases hdrop : s.dropWhile (fun c => c != nl) with
    | nil =>
      have hs : s.takeWhile (fun c => c != nl) = s := by
        have := List.takeWhile_append_dropWhile (fun c => c != nl) s
        rw [hdrop] at this
        simpa using this
      have hnonl : ∀ c ∈ s, c ≠ nl := by
        intro c hc
        rw [← hs] at hc
        simpa using List.mem_takeWhile_imp hc
      have hsplit : splitLines (s ++ delim) = [s ++ delim] := by
        have h1 : ∀ c ∈ s ++ [';'], c ≠ nl := by
          intro c hc
          rcases List.mem_append.mp hc with h1 | h1
          · exact hnonl c h1
          · rw [List.mem_singleton.mp h1]
            intro hcontra
            exact absurd hcontra.symm (by simp [nl])
        have := splitLines_no_nl_cons (s ++ [';']) [] h1
        rw [show (s ++ [';']) ++ nl :: [] = s ++ delim by simp [delim, nl]] at this
        rw [this, splitLines_nil]
      rw [hsplit]
      simp only [List.cons_append, List.nil_append, parse_go]
      rw [if_pos (by
        rw [show buf ++ (s ++ delim) = (buf ++ s) ++ delim by simp]
        exact delim_ends_framed (buf ++ s))]
      simp
    | cons c0 srest =>
      have hc0 : c0 = nl := by
        have := List.head?_dropWhile_not (fun c => c != nl) s
        rw [hdrop] at this
        simpa using this
      subst hc0
      have hdecomp : s = s.takeWhile (fun c => c != nl) ++ nl :: srest := by
        conv_lhs => rw [← List.takeWhile_append_dropWhile (fun c => c != nl) s]
        rw [hdrop]
      have hnonl : ∀ c ∈ s.takeWhile (fun c => c != nl), c ≠ nl := by
        intro c hc
        simpa using List.mem_takeWhile_imp hc
      have hs2 := congrArg List.length hdecomp
      simp at hs2
      have hlenrest : srest.length ≤ n := by omega
      have hsplit : splitLines (s ++ delim) =
          (s.takeWhile (fun c => c != nl) ++ [nl]) :: splitLines (srest ++ delim) := by
        conv_lhs => rw [hdecomp]
        rw [show (s.takeWhile (fun c => c != nl) ++ nl :: srest) ++ delim =
            s.takeWhile (fun c => c != nl) ++ nl :: (srest ++ delim) by simp]
        exact splitLines_no_nl_cons _ _ hnonl
      have hsplit_s : splitLines s =
          (s.takeWhile (fun c => c != nl) ++ [nl]) :: splitLines srest := by
        conv_lhs => rw [hdecomp]
        exact splitLines_no_nl_cons _ _ hnonl
      have hline_no : delim_ends (s.takeWhile (fun c => c != nl) ++ [nl]) = false := by
        apply hlines
        rw [hsplit_s]
        simp
      rw [hsplit]
      simp only [List.cons_append, parse_go]
      rw [if_neg (by
        rw [delim_ends_buf_line buf _ hbuf, hline_no]
        simp)]
      show parse_go (buf ++ (s.takeWhile (fun c => c != nl) ++ [nl]))
          (splitLines (srest ++ delim) ++ rest) =
        ((buf ++ (s ++ delim)) :: (parse_go [] rest).1, (parse_go [] rest).2)
      rw [ih srest hlenrest (buf ++ (s.takeWhile (fun c => c != nl) ++ [nl])) rest
        (buf_ok_append_line buf _)
        (by
          intro l hl
          apply hlines
          rw [hsplit_s]
          simp [hl])]
      conv_rhs => rw [hdecomp]
      simp

/-- Rendering a statement sequence with the exporter framing and then
splitting it into lines and reassembling recovers each framed statement in
order, with an empty residue. -/
theorem parse_render :
    ∀ (stmts : List Chars),
      (∀ s ∈ stmts, ∀ l ∈ splitLines s, delim_ends l = false) →
      parse_go [] (splitLines (render stmts)) = (stmts.map write_framed, []) := by
  intro stmts
  induction stmts with
  | nil =>
    intro _
    rfl
  | cons s rest ih =>
    intro h
    have hrender : render (s :: rest) = (s ++ delim) ++ render rest := by
      simp [render, write_framed]
    have hsplit : splitLines (render (s :: rest)) =
        splitLines (s ++ delim) ++ splitLines (render rest) := by
      rw [hrender,
        show s ++ delim = (s ++ [';']) ++ [nl] by simp [delim, nl],
        splitLines_append_nl]
    rw [hsplit,
      parse_framed s.length s (Nat.le_refl _) [] (splitLines (render rest)) rfl
        (h s (by simp)),
      ih (fun t ht l hl => h t (by simp [ht]) l hl)]
    simp [write_framed]

/-- Every written statement of the export loop carries the `;` + newline
terminator: the write list is one framed statement per row. -/
theorem export_loop_written (enc : (String → String) → String) :
    ∀ (rows : List (String → String)) (acc : List String × Nat),
      export_loop enc acc rows =
        (acc.1 ++ rows.map (fun v => enc v ++ ";\n"), acc.2 + rows.length) := by
  intro rows
  induction rows with
  | nil =>
    intro acc
    simp [export_loop]
  | cons v vs ih =>
    intro acc
    show export_loop enc (acc.1 ++ [enc v ++ ";\n"], acc.2 + 1) vs = _
    rw [ih]
    simp
    omega

/-- String concatenation commutes with the character-list view. -/
theorem string_toList_append (a b : String) :
    (a ++ b).toList = a.toList ++ b.toList :=
  String.data_append a b

/-- Stripping the framing recovers the statement. -/
theorem strip_delim_framed (s : Chars) : strip_delim (write_framed s) = s := by
  have h : write_framed s = (s ++ [';']) ++ [nl] := by
    simp [write_framed, delim, nl]
  rw [strip_delim, h, List.dropLast_concat, List.dropLast_concat]

/-! ## Claim C1 -/

/-- Claim C1, counterexample to the claim as stated: on a table descriptor
whose counter columns are interleaved with a non-counter column, the
synthesized UPDATE does not contain `c = c + v` for every non-NULL counter
column — the `c1` increment is silently dropped — so synthesis differs from
the spec-side statement built over all counter columns. -/
theorem C1_cex :
    make_row_encoder "k" "t" c1x_cols c1x_values ≠
      spec_update "k" "t" c1x_cols c1x_values := by decide

/-- Claim C1 (amended): for every table descriptor with at least one counter
column whose column sequence groups into at most two key runs (counter
columns contiguous and non-counter columns contiguous), and every encoded
row, synthesis emits the UPDATE statement — never an INSERT — whose SET
clause has `c = c + v` exactly for the counter columns with non-NULL encoded
value and whose WHERE clause is the conjunction of `c = v` over every
non-counter column. -/
theorem C1_counter_update (keyspace tablename : String) (cols : List Column)
    (values : String → String)
    (hruns : (groupby is_counter_kv cols).length ≤ 2)
    (hctr : cols.any is_counter_kv = true) :
    make_row_encoder keyspace tablename cols values =
      spec_update keyspace tablename cols values := by
  obtain ⟨hc, hn⟩ := partition_filter_eq cols hruns
  have hne : counters_of cols ≠ [] :=
    counters_of_ne_nil cols (by simpa using List.any_eq_true.mp hctr)
  have hlen : 0 < (counters_of cols).length := List.length_pos.mpr hne
  simp only [make_row_encoder, spec_update]
  rw [if_pos hlen, hc, hn]

/-- Claim C1, witness: the spec example row `pk = 1, counter_col = 5` on a
contiguous counter table yields exactly
`UPDATE "k"."t" SET counter_col = counter_col + 5 WHERE pk = 1`. -/
theorem C1_witness :
    (groupby is_counter_kv c1w_cols).length ≤ 2 ∧
      c1w_cols.any is_counter_kv = true ∧
      make_row_encoder "k" "t" c1w_cols c1w_values =
        spec_update "k" "t" c1w_cols c1w_values ∧
      make_row_encoder "k" "t" c1w_cols c1w_values =
        "UPDATE \"k\".\"t\" SET counter_col = counter_col + 5 WHERE pk = 1" :=
  ⟨by decide, by decide,
    C1_counter_update "k" "t" c1w_cols c1w_values (by decide) (by decide),
    by decide⟩

/-! ## Claim C2 -/

/-- Claim C2, counterexample to the claim as stated: with the interleaved
sequence `a (non-counter), b (counter), c (non-counter)` the groupby/dict
partition loses column `a` entirely — it is in neither partition although it
is a column of the descriptor — so the partition does not contain every
column exactly once for every arrangement. -/
theorem C2_cex :
    (("a", "int") : Column) ∈ c2x_cols ∧
      ("a" : String) ∉ counters_of c2x_cols ∧
      ("a" : String) ∉ non_counters_of c2x_cols := by decide

/-- Claim C2 (amended): whenever the column sequence groups into at most two
key runs (counter and non-counter columns each contiguous, which includes
every real counter table, where the non-counter primary-key columns precede
the counter columns), the partition is exactly the order-preserving filter
of the sequence: each partition keeps the original relative order, and
together the two partitions contain every column exactly once. -/
theorem C2_partition (cols : List Column)
    (hruns : (groupby is_counter_kv cols).length ≤ 2) :
    counters_of cols = (cols.filter is_counter_kv).map Prod.fst ∧
      non_counters_of cols = (cols.filter (fun kv => !is_counter_kv kv)).map Prod.fst ∧
      (counters_of cols ++ non_counters_of cols).Perm (cols.map Prod.fst) := by
  obtain ⟨hc, hn⟩ := partition_filter_eq cols hruns
  refine ⟨hc, hn, ?_⟩
  rw [hc, hn, ← List.map_append]
  exact (List.filter_append_perm is_counter_kv cols).map Prod.fst

/-- Claim C2, witness: on a contiguous counter table the partition is exact
and covers all columns. -/
theorem C2_witness :
    counters_of c2w_cols = (c2w_cols.filter is_counter_kv).map Prod.fst ∧
      non_counters_of c2w_cols =
        (c2w_cols.filter (fun kv => !is_counter_kv kv)).map Prod.fst ∧
      (counters_of c2w_cols ++ non_counters_of c2w_cols).Perm
        (c2w_cols.map Prod.fst) :=
  C2_partition c2w_cols (by decide)

/-! ## Claim C3 -/

/-- Claim C3: for every counter-free table descriptor and every encoded row,
synthesis emits an INSERT whose column list and value list are built over
exactly the columns whose encoded value is not the NULL sentinel, positionally
aligned (both lists are images of the same filtered column sequence); and the
NULL-safe encoder wrapper maps an absent value to the NULL sentinel and
delegates any present value to the per-type encoder. -/
theorem C3_insert_synthesis {α : Type} (e : α → String)
    (keyspace tablename : String) (cols : List Column) (values : String → String)
    (hfree : cols.all (fun kv => !is_counter_kv kv) = true) :
    make_value_encoder e none = "NULL" ∧
      (∀ x : α, make_value_encoder e (some x) = e x) ∧
      make_row_encoder keyspace tablename cols values =
        spec_insert keyspace tablename cols values := by
  refine ⟨rfl, fun x => rfl, ?_⟩
  have hall : ∀ kv ∈ cols, is_counter_kv kv = false := by
    intro kv hkv
    simpa using List.all_eq_true.mp hfree kv hkv
  obtain ⟨hc, hn⟩ := partition_counter_free cols hall
  simp only [make_row_encoder, spec_insert]
  rw [hc, hn]
  simp

/-- Claim C3, witness: a row with one NULL cell synthesizes to an INSERT
that omits that column from both lists, and the wrapper sends `none` to
`NULL`. -/
theorem C3_witness :
    make_value_encoder (fun s : String => s) none = "NULL" ∧
      make_row_encoder "k" "t" c3w_cols c3w_values =
        spec_insert "k" "t" c3w_cols c3w_values ∧
      make_row_encoder "k" "t" c3w_cols c3w_values =
        "INSERT INTO \"k\".\"t\" (\"a\") VALUES (1)" :=
  ⟨(C3_insert_synthesis (fun s : String => s) "k" "t" c3w_cols c3w_values
      (by decide)).1,
    (C3_insert_synthesis (fun s : String => s) "k" "t" c3w_cols c3w_values
      (by decide)).2.2,
    by decide⟩

/-! ## Claim C4 -/

/-- Claim C4: on every input stream, the statements reach the execution sink
in file order at event granularity — the flattened submission trace equals
the reassembled statement sequence — and the only reordering units, the
concurrent batches, contain exclusively concurrency-safe statements; every
non-safe statement is its own synchronous event, so the pending batch is
flushed (appears earlier in the trace) before it runs, and order across it
is preserved on both sides. -/
theorem C4_replay_order (sync : Bool) (lines : List Chars) :
    trace_stmts (import_data sync lines) = parse_statements lines ∧
      ∀ ss, Event.batch ss ∈ import_data sync lines →
        ∀ s ∈ ss, can_execute_concurrently sync s = true := by
  constructor
  · unfold import_data parse_statements
    rw [import_loop_parse sync lines [] [] []]
    by_cases hres : (parse_go [] lines).2 = [] <;>
      simp [hres, trace_stmts_nil]
  · intro ss hss s hs
    have hsafe :=
      import_loop_batches_safe sync lines ⟨[], [], []⟩ (by simp) (by simp)
    unfold import_data finish_run at hss
    by_cases h1 : (import_loop sync ⟨[], [], []⟩ lines).statement = []
    · rw [if_pos h1] at hss
      by_cases h2 : (import_loop sync ⟨[], [], []⟩ lines).concurrent = []
      · rw [if_pos h2] at hss
        exact hsafe.2 ss hss s hs
      · rw [if_neg h2] at hss
        rcases List.mem_append.mp hss with ha | ha
        · exact hsafe.2 ss ha s hs
        · have hsseq : ss = (import_loop sync ⟨[], [], []⟩ lines).concurrent := by
            simpa using List.mem_singleton.mp ha
          rw [hsseq] at hs
          exact hsafe.1 s hs
    · rw [if_neg h1] at hss
      rcases List.mem_append.mp hss with ha | ha
      · by_cases h2 : (import_loop sync ⟨[], [], []⟩ lines).concurrent = []
        · rw [if_pos h2] at ha
          exact hsafe.2 ss ha s hs
        · rw [if_neg h2] at ha
          rcases List.mem_append.mp ha with hb | hb
          · exact hsafe.2 ss hb s hs
          · have hsseq : ss = (import_loop sync ⟨[], [], []⟩ lines).concurrent := by
              simpa using List.mem_singleton.mp hb
            rw [hsseq] at hs
            exact hsafe.1 s hs
      · have := List.mem_singleton.mp ha
        simp at this

/-- Claim C4, witness: in the stream `INSERT A; DROP X; INSERT B;` the first
INSERT is batched before the DROP and classified safe; the theorem applied
to that stream certifies the batched statement. -/
theorem C4_witness :
    can_execute_concurrently false (str "INSERT INTO A (x) VALUES (1);\n") = true :=
  (C4_replay_order false c4_lines).2
    [str "INSERT INTO A (x) VALUES (1);\n"] (by decide)
    (str "INSERT INTO A (x) VALUES (1);\n") (by decide)

/-! ## Claim C5 -/

/-- Claim C5: the classifier returns true exactly when the synchronous-only
flag is unset and the upper-cased statement starts with INSERT or UPDATE
(the case-insensitive leading-keyword test of the source); with the flag
set it returns false for every statement. -/
theorem C5_classifier_rule :
    (∀ (sync : Bool) (s : Chars),
        can_execute_concurrently sync s = true ↔
          sync = false ∧
            (starts_with (str "INSERT") (s.map Char.toUpper) = true ∨
              starts_with (str "UPDATE") (s.map Char.toUpper) = true)) ∧
      ∀ s : Chars, can_execute_concurrently true s = false := by
  constructor
  · intro sync s
    cases sync <;> simp [can_execute_concurrently, Bool.or_eq_true]
  · intro s
    simp [can_execute_concurrently]

/-- Claim C5, witness: an INSERT is concurrency-safe, a DROP is not, and
synchronous mode forces both to false. -/
theorem C5_witness :
    can_execute_concurrently false (str "INSERT INTO t (a) VALUES (1)") = true ∧
      can_execute_concurrently false (str "DROP TABLE t") = false ∧
      can_execute_concurrently true (str "INSERT INTO t (a) VALUES (1)") = false :=
  ⟨(C5_classifier_rule.1 false (str "INSERT INTO t (a) VALUES (1)")).mpr
      ⟨rfl, Or.inl (by decide)⟩,
    by decide,
    C5_classifier_rule.2 (str "INSERT INTO t (a) VALUES (1)")⟩

/-! ## Claim C6 -/

/-- Claim C6: every data statement the exporter writes is terminated by `;`
immediately followed by a newline; and for every statement sequence in which
no statement contains an internal line ending in a semicolon, writing the
sequence with the exporter framing and re-parsing the file lines with the
replayer reassembly recovers exactly the original statement sequence — each
statement is reconstituted with its two-character terminator attached, and
stripping the terminator yields the originals. -/
theorem C6_framing_roundtrip (stmts : List Chars)
    (h : stmts.all (fun s => (splitLines s).all (fun l => !delim_ends l)) = true) :
    (∀ (keyspace tablename : String) (cols : List Column)
        (rows : List (String → String)),
        ∀ w ∈ (table_to_cqlfile keyspace tablename cols rows).written,
          delim_ends (str w) = true) ∧
      parse_statements (splitLines (render stmts)) = stmts.map write_framed ∧
      (parse_statements (splitLines (render stmts))).map strip_delim = stmts := by
  have hlines : ∀ s ∈ stmts, ∀ l ∈ splitLines s, delim_ends l = false := by
    intro s hs l hl
    have h1 := List.all_eq_true.mp h s hs
    have h2 := List.all_eq_true.mp h1 l hl
    simpa using h2
  have hparse := parse_render stmts hlines
  refine ⟨?_, ?_, ?_⟩
  · intro keyspace tablename cols rows w hw
    unfold table_to_cqlfile at hw
    rw [export_loop_written (make_row_encoder keyspace tablename cols) rows ([], 0)] at hw
    simp only [List.nil_append] at hw
    obtain ⟨v, _, hwv⟩ := List.mem_map.mp hw
    rw [← hwv]
    have : str (make_row_encoder keyspace tablename cols v ++ ";\n") =
        (make_row_encoder keyspace tablename cols v).toList ++ delim := by
      rw [str, string_toList_append]
      rfl
    rw [this]
    exact delim_ends_framed _
  · unfold parse_statements
    rw [hparse]
    simp
  · unfold parse_statements
    rw [hparse]
    simp only [ite_true, List.map_map]
    have hcomp : (strip_delim ∘ write_framed) = id := funext strip_delim_framed
    rw [hcomp, List.map_id]

/-- Claim C6, witness: a one-line statement and a two-line statement
round-trip through the exporter framing and the replayer reassembly. -/
theorem C6_witness :
    parse_statements (splitLines (render c6_stmts)) = c6_stmts.map write_framed ∧
      (parse_statements (splitLines (render c6_stmts))).map strip_delim = c6_stmts :=
  ⟨(C6_framing_roundtrip c6_stmts (by decide)).2.1,
    (C6_framing_roundtrip c6_stmts (by decide)).2.2⟩

/-! ## Claim C7 -/

/-- Claim C7: at end of input, any pending batch is flushed first, and a
non-empty trailing fragment — necessarily not delimiter-terminated, since a
fired buffer is reset — is still submitted synchronously as the final event
rather than discarded. -/
theorem C7_trailing_fragment (sync : Bool) (lines : List Chars)
    (h : parse_residual lines ≠ []) :
    (import_data sync lines).getLast? = some (Event.sync (parse_residual lines)) ∧
      delim_ends (parse_residual lines) = false ∧
      ((import_loop sync ⟨[], [], []⟩ lines).concurrent ≠ [] →
        (import_data sync lines).dropLast.getLast? =
          some (Event.batch (import_loop sync ⟨[], [], []⟩ lines).concurrent)) := by
  have hbuf : (import_loop sync ⟨[], [], []⟩ lines).statement = parse_residual lines := by
    have := import_loop_buffer sync lines [] [] []
    simpa [parse_residual] using this
  have hne : (import_loop sync ⟨[], [], []⟩ lines).statement ≠ [] := by
    rw [hbuf]; exact h
  have himp : import_data sync lines =
      (if (import_loop sync ⟨[], [], []⟩ lines).concurrent = []
          then (import_loop sync ⟨[], [], []⟩ lines).trace
          else (import_loop sync ⟨[], [], []⟩ lines).trace ++
            [Event.batch (import_loop sync ⟨[], [], []⟩ lines).concurrent]) ++
        [Event.sync (import_loop sync ⟨[], [], []⟩ lines).statement] := by
    unfold import_data finish_run
    rw [if_neg hne]
  refine ⟨?_, ?_, ?_⟩
  · rw [himp, List.getLast?_concat, hbuf]
  · exact parse_residual_no_delim lines [] rfl
  · intro hcne
    rw [himp, List.dropLast_concat, if_neg hcne, List.getLast?_concat]

/-- Claim C7, witness: the stream `INSERT ...;\n` followed by the fragment
`SELEC` ends with the fragment submitted synchronously. -/
theorem C7_witness :
    (import_data false c7_lines).getLast? =
      some (Event.sync (parse_residual c7_lines)) :=
  (C7_trailing_fragment false c7_lines (by decide)).1

/-! ## Claim C8 -/

/-- Claim C8, counterexample to the claim as stated: with a keyspace list
and a filter list both supplied, the run does fail with status 1, but the
cluster connection (`setup_cluster`, called by `main` before `export_data`)
happens before the failure, so cluster contact is attempted before the
configuration error is reported. -/
theorem C8_cex :
    main_trace c8_args =
        [Effect.connectCluster, Effect.stderrWrite, Effect.exitProc 1] ∧
      Effect.connectCluster ∈ pre_failure (main_trace c8_args) := by decide

/-- Claim C8 (amended): for every export configuration (export file set,
no file to replay, s3 validation passing) that supplies more than one
selection mode, the error is reported and the process exits with status 1 before any
export-file IO or export work — but after the cluster connection, which
`main` establishes before `export_data` runs its validation. -/
theorem C8_selection_conflict (a : Args)
    (h1 : a.import_file = none)
    (h2 : a.export_file.isSome = true)
    (h3 : (a.s3_upload &&
        (a.aws_access_key.isNone || a.aws_secret_key.isNone ||
          a.s3_bucket_name.isNone)) = false)
    (h4 : 1 < selection_options a) :
    main_trace a = [Effect.connectCluster, Effect.stderrWrite, Effect.exitProc 1] ∧
      Effect.openExportFile ∉ main_trace a ∧
      Effect.exportBody ∉ main_trace a := by
  have himp : a.import_file.isNone = true := by rw [h1]; rfl
  have himp2 : a.import_file.isSome = false := by rw [h1]; rfl
  have hexp : a.export_file.isNone = false := by
    rcases Option.isSome_iff_exists.mp h2 with ⟨v, hv⟩
    rw [hv]
    rfl
  have heq : main_trace a =
      [Effect.connectCluster, Effect.stderrWrite, Effect.exitProc 1] := by
    simp [main_trace, himp, himp2, hexp, h3, export_data_trace, h4]
  refine ⟨heq, ?_, ?_⟩ <;> rw [heq] <;> decide

/-- Claim C8, witness: the concrete conflicting configuration (keyspace list
plus filter list) produces exactly connect, error report, exit 1, with no
export-file IO. -/
theorem C8_witness :
    main_trace c8_args =
        [Effect.connectCluster, Effect.stderrWrite, Effect.exitProc 1] ∧
      Effect.openExportFile ∉ main_trace c8_args ∧
      Effect.exportBody ∉ main_trace c8_args :=
  C8_selection_conflict c8_args rfl rfl rfl (by decide)

/-! ## Claim C9 -/

/-- Claim C9, counterexample to the claim as stated: `table_to_cqlfile` has
no return statement, so its Python return value is `None` — not the number
of rows written, even on a run that wrote one statement. -/
theorem C9_cex :
    ¬ ((table_to_cqlfile "k" "t" [("a", "int")] [fun _ => "1"]).ret =
        some (table_to_cqlfile "k" "t" [("a", "int")]
          [fun _ => "1"]).written.length) := by decide

/-- Claim C9 (amended): the export loop writes exactly one framed statement
per fetched row and its internal counter `cnt` equals that number of rows,
but the function returns no value (Python `None`); the row count is tracked
only for progress reporting, not returned. -/
theorem C9_export_count (keyspace tablename : String) (cols : List Column)
    (rows : List (String → String)) :
    (table_to_cqlfile keyspace tablename cols rows).cnt = rows.length ∧
      (table_to_cqlfile keyspace tablename cols rows).written.length = rows.length ∧
      (table_to_cqlfile keyspace tablename cols rows).ret = none := by
  unfold table_to_cqlfile
  rw [export_loop_written]
  simp

/-! ## Claim C10 -/

/-- Claim C10: on a table with at least one counter column, a row whose
counter cells are all NULL still synthesizes an UPDATE whose SET clause is
the empty string — the syntactically invalid `UPDATE ... SET  WHERE ...` —
rather than being skipped or raising (the synthesizer is total and takes the
UPDATE branch with an empty increment list). -/
theorem C10_empty_set_clause (keyspace tablename : String) (cols : List Column)
    (values : String → String)
    (hctr : cols.any is_counter_kv = true)
    (hnull : (cols.filter is_counter_kv).all (fun kv => values kv.1 == "NULL") = true) :
    update_set_clause (counters_of cols) values = "" ∧
      make_row_encoder keyspace tablename cols values =
        "UPDATE \"" ++ keyspace ++ "\".\"" ++ tablename ++ "\" SET " ++ "" ++
          " WHERE " ++ update_where_clause (non_counters_of cols) values := by
  have hset : update_set_clause (counters_of cols) values = "" := by
    unfold update_set_clause
    have hfil : (counters_of cols).filter (fun c => values c != "NULL") = [] := by
      apply List.filter_eq_nil_iff.mpr
      intro c hc
      obtain ⟨kv, hkv, hname, hckv⟩ := counters_of_sound cols c hc
      have hvd := List.all_eq_true.mp hnull kv (List.mem_filter.mpr ⟨hkv, hckv⟩)
      rw [hname] at hvd
      simp only [bne, hvd]
      simp
    rw [hfil]
    rfl
  refine ⟨hset, ?_⟩
  have hne : counters_of cols ≠ [] :=
    counters_of_ne_nil cols (by simpa using List.any_eq_true.mp hctr)
  have hlen : 0 < (counters_of cols).length := List.length_pos.mpr hne
  simp only [make_row_encoder]
  rw [if_pos hlen, hset]

/-- Claim C10, witness: the concrete row `pk = 1` with a NULL counter cell
yields `UPDATE "ks"."t" SET  WHERE pk = 1`. -/
theorem C10_witness :
    update_set_clause (counters_of c10w_cols) c10w_values = "" ∧
      make_row_encoder "ks" "t" c10w_cols c10w_values =
        "UPDATE \"" ++ "ks" ++ "\".\"" ++ "t" ++ "\" SET " ++ "" ++
          " WHERE " ++ update_where_clause (non_counters_of c10w_cols) c10w_values :=
  C10_empty_set_clause "ks" "t" c10w_cols c10w_values (by decide) (by decide)

end CDump
